/-
Verification of the normalizer core of the tokenizer repository
(src/normalizer/normalized.go) against its natural-language specification.

Strings are embedded as lists of runes (Unicode code points as Nat).
Go `int` values are embedded as Int.  Go operations that can panic
(out-of-range indexing or slicing, `log.Fatal`) are embedded as
Option-returning functions where `none` marks the panic.
-/
import Mathlib

namespace Normalizer

/-- Go slice indexing `xs[i]` on an Int index: `none` models the runtime
panic on a negative or out-of-range index. -/
def getI {α : Type} (xs : List α) (i : Int) : Option α :=
  if 0 ≤ i then xs.get? i.toNat else none

/-- Go slicing `xs[lo:hi]`: `none` models the runtime panic when the
bounds are invalid (taking capacity = length). -/
def sliceI {α : Type} (xs : List α) (lo hi : Int) : Option (List α) :=
  if 0 ≤ lo ∧ lo ≤ hi ∧ hi ≤ (xs.length : Int) then
    some ((xs.drop lo.toNat).take (hi - lo).toNat)
  else none

/-- IndexOn from normalized.go: which string a Range indexes on. -/
inductive IndexOn
  | originalTarget
  | normalizedTarget
deriving DecidableEq, Repr

/-- Range from normalized.go: a pair of indexes on either the normalized
or the original string.  The Go field `end` is called `stop` here because
`end` is a Lean keyword. -/
structure Range where
  start : Int
  stop : Int
  indexOn : IndexOn
deriving DecidableEq, Repr

def NewRange (start stop : Int) (indexOn : IndexOn) : Range :=
  { start := start, stop := stop, indexOn := indexOn }

/-- Alignment from normalized.go.  `pos` is the Go field `Pos` (start of
the original-rune span) and `changes` is the Go field `Changes` (its
exclusive end). -/
structure Alignment where
  pos : Int
  changes : Int
deriving DecidableEq, Repr

/-- NormalizedString from normalized.go: original text, normalized text
and the alignment table.  The Go `Normalized` wrapper around it is
trivial and is flattened away. -/
structure NormalizedString where
  original : List Nat
  normalized : List Nat
  alignments : List Alignment
deriving DecidableEq, Repr

/-- NewNormalizedFrom: identity alignment, entry i = {Pos i, Changes i+1}. -/
def NewNormalizedFrom (s : List Nat) : NormalizedString :=
  { original := s
    normalized := s
    alignments := (List.range s.length).map (fun i : Nat => ⟨(i : Int), (i : Int) + 1⟩) }

/-- Len: number of runes of the normalized string. -/
def NormalizedString.Len (n : NormalizedString) : Int :=
  (n.normalized.length : Int)

/-- Modelled from the spec: util.MinMax, from the repository's util
package which is not under src/.  The Transform engine uses it to take
the bounding span (minimum and maximum) of a pool of alignment bounds;
the spec calls this "min over slice of start/end values, max over slice
of start/end values". -/
def minMax (pool : List Int) : Int × Int :=
  match pool with
  | [] => (0, 0)
  | x :: rest => (rest.foldl min x, rest.foldl max x)

/-- Modelled from the spec: util.MakeRange, from the repository's util
package which is not under src/.  It materializes the integer interval
[lo, hi) as a list, Python-range style; a negative width corresponds to
Go's `make` with a negative length, which panics, hence `none`. -/
def makeRange (lo hi : Int) : Option (List Int) :=
  if hi < lo then none
  else some ((List.range (hi - lo).toNat).map (fun i => lo + (i : Int)))

/-
Model of the external Unicode capabilities the core consumes
(golang.org/x/text/unicode/norm, unicode, strings).  The spec treats
them as a trusted library: cluster segmentation per normalization form,
"is already normalized" tests, combining-mark and whitespace
classification, case mapping.  The model is faithful on the code points
exercised here: ASCII, U+0301 COMBINING ACUTE ACCENT (769, the only
modelled nonspacing mark / nonstarter) and U+00E9 LATIN SMALL LETTER E
WITH ACUTE (233, which decomposes canonically to 101 followed by 769).
-/

/-- Combining-class model: a rune is a nonstarter iff it is the modelled
combining mark U+0301. -/
def isNonStarter (r : Nat) : Bool := r == 769

/-- Canonical decomposition model: U+00E9 decomposes to e + U+0301;
every other modelled rune is its own decomposition. -/
def decompose (r : Nat) : List Nat :=
  if r == 233 then [101, 769] else [r]

/-- Compatibility decomposition model: on the modelled code points the
compatibility and canonical decompositions coincide. -/
def compatDecompose (r : Nat) : List Nat := decompose r

/-- Primary-composite model: e + U+0301 composes to U+00E9. -/
def composePair (a b : Nat) : Option Nat :=
  if a == 101 && b == 769 then some 233 else none

/-- Canonical composition pass over a decomposed rune sequence. -/
def composeRun : List Nat → List Nat
  | a :: b :: rest =>
    match composePair a b with
    | some c => c :: composeRun rest
    | none => a :: composeRun (b :: rest)
  | l => l

/-- Accumulating worker for `segments`. -/
def segmentsAux : List Nat → Option (List Nat) → List (List Nat)
  | [], none => []
  | [], some acc => [acc.reverse]
  | r :: rest, none => segmentsAux rest (some [r])
  | r :: rest, some acc =>
    if isNonStarter r then segmentsAux rest (some (r :: acc))
    else acc.reverse :: segmentsAux rest (some [r])

/-- Normalization-cluster segmentation of the norm.Iter iterator: a
boundary falls before every starter, so a segment is one leading rune
followed by the run of nonstarters after it. -/
def segments (s : List Nat) : List (List Nat) := segmentsAux s none

/-- The four Unicode normalization forms. -/
inductive NormForm
  | nfc
  | nfd
  | nfkc
  | nfkd
deriving DecidableEq, Repr

/-- Whole-string normalization in the model, used for the library's
IsNormalString test. -/
def applyForm : NormForm → List Nat → List Nat
  | .nfd, s => s.flatMap decompose
  | .nfkd, s => s.flatMap compatDecompose
  | .nfc, s => (segments s).flatMap (fun seg => composeRun (seg.flatMap decompose))
  | .nfkc, s => (segments s).flatMap (fun seg => composeRun (seg.flatMap compatDecompose))

/-- norm.Form.IsNormalString model: a string is in a form iff applying
the form leaves it unchanged. -/
def isNormalString (f : NormForm) (s : List Nat) : Bool :=
  applyForm f s == s

/-- isMn from normalized.go: membership of the unicode.Mn category,
modelled on the code points in scope (U+0301 is the only Mn rune). -/
def isMn (r : Nat) : Bool := r == 769

/-- unicode.IsSpace model on the whitespace runes of the Latin-1 range. -/
def isSpace (r : Nat) : Bool :=
  r == 9 || r == 10 || r == 11 || r == 12 || r == 13 || r == 32 || r == 133 || r == 160

/-- strings.ToLower model: Go case mapping is a rune-by-rune, count
preserving map; ASCII mapping suffices for the runes in scope. -/
def toLowerRune (r : Nat) : Nat :=
  if 65 ≤ r ∧ r ≤ 90 then r + 32 else r

/-- strings.ToUpper model, rune-by-rune like `toLowerRune`. -/
def toUpperRune (r : Nat) : Nat :=
  if 97 ≤ r ∧ r ≤ 122 then r - 32 else r

/-- Number of UTF-8 bytes of one rune. -/
def utf8Len (r : Nat) : Nat :=
  if r < 128 then 1 else if r < 2048 then 2 else if r < 65536 then 3 else 4

/-- UTF-8 encoding of one rune. -/
def utf8EncodeChar (r : Nat) : List Nat :=
  if r < 128 then [r]
  else if r < 2048 then [192 + r / 64, 128 + r % 64]
  else if r < 65536 then [224 + r / 4096, 128 + (r / 64) % 64, 128 + r % 64]
  else [240 + r / 262144, 128 + (r / 4096) % 64, 128 + (r / 64) % 64, 128 + r % 64]

/-- UTF-8 encoding of a rune sequence (the bytes of a Go string). -/
def utf8Encode (s : List Nat) : List Nat := s.flatMap utf8EncodeChar

/-- Streaming worker for `utf8Decode`: `pending` counts the
continuation bytes still expected for the current rune and `acc` holds
its partial value. -/
def utf8DecodeAux : List Nat → Nat → Nat → List Nat
  | [], 0, _ => []
  | [], _ + 1, _ => [65533]
  | b :: rest, 0, _ =>
    if b < 128 then b :: utf8DecodeAux rest 0 0
    else if b < 224 then utf8DecodeAux rest 1 (b - 192)
    else if b < 240 then utf8DecodeAux rest 2 (b - 224)
    else utf8DecodeAux rest 3 (b - 240)
  | b :: rest, 1, acc => (acc * 64 + (b - 128)) :: utf8DecodeAux rest 0 0
  | b :: rest, k + 2, acc => utf8DecodeAux rest (k + 1) (acc * 64 + (b - 128))

/-- UTF-8 decoding of a byte sequence back to runes, as Go's
`[]rune(string)` conversion does; malformed sequences (unreachable for
the inputs in scope) involve U+FFFD. -/
def utf8Decode (bytes : List Nat) : List Nat := utf8DecodeAux bytes 0 0

/-- ChangeMap from normalized.go: one rune-string of the new normalized
text together with its change descriptor. -/
structure ChangeMap where
  runeVal : List Nat
  changes : Int
deriving DecidableEq, Repr

/-- One step of the Transform engine: given the prior alignment table,
the one-time initialOffset, the op position `i`, the running `offset`
and the effective `changes` of the op, produce the new alignment entry
and the updated offset, exactly as the switch in Transform does. -/
def transformAlign (prior : List Alignment) (initialOffset : Int) (i : Nat)
    (offset : Int) (changes : Int) : Option (Alignment × Int) :=
  let idx : Int := (i : Int) - offset
  if changes > 0 then
    if idx < 1 then some (⟨0, 0⟩, offset + 1)
    else (getI prior (idx - 1)).map (fun a => (a, offset + 1))
  else if changes = 0 then
    (getI prior (idx - initialOffset)).map (fun a => (a, offset))
  else
    (sliceI prior idx (idx + (-changes))).map (fun aligns =>
      let pool := aligns.flatMap (fun a => [a.changes, a.pos])
      let mm := minMax pool
      (⟨mm.1, mm.2⟩, offset + changes))

/-- Loop of Transform over the ChangeMap sequence, carrying the op index,
the running offset and the remaining one-time initial offset. -/
def transformGo (prior : List Alignment) (initialOffset : Int) :
    List ChangeMap → Nat → Int → Int → Option (List Alignment)
  | [], _, _, _ => some []
  | item :: rest, i, offset, remainingOffset =>
    let changes :=
      if remainingOffset ≠ 0 then item.changes - remainingOffset else item.changes
    (transformAlign prior initialOffset i offset changes).bind (fun p =>
      (transformGo prior initialOffset rest (i + 1) p.2 0).map (fun aligns =>
        p.1 :: aligns))

/-- Transform from normalized.go: rewrites the normalized text as the
concatenation of the ops' rune values and replaces the alignment table
with one entry per op. -/
def NormalizedString.Transform (n : NormalizedString) (m : List ChangeMap)
    (initialOffset : Int) : Option NormalizedString :=
  (transformGo n.alignments initialOffset m 0 0 initialOffset).map (fun newAligns =>
    { n with
        alignments := newAligns
        normalized := (m.map (fun cm => cm.runeVal)).flatten })

/-- ChangeMap sequence NFD builds: the norm.NFD iterator yields each
cluster in NFD form; within a cluster the first rune gets change 0 and
every later rune gets change 1. -/
def nfdChangeMapOf (s : List Nat) : List ChangeMap :=
  (segments s).flatMap (fun seg =>
    ((seg.flatMap decompose).enum).map (fun p =>
      ⟨[p.2], if p.1 == 0 then 0 else 1⟩))

/-- NFD from normalized.go: no already-normal fast path; transform with
the decomposition ChangeMap and initialOffset 0. -/
def NormalizedString.NFD (n : NormalizedString) : Option NormalizedString :=
  n.Transform (nfdChangeMapOf n.normalized) 0

/-- ChangeMap sequence NFC builds: the norm.NFD iterator yields each
cluster in NFD form; a one-rune cluster gets change 0 and a multi-rune
cluster becomes a single op, keeping the decomposed runes as its rune
value, with change -1. -/
def nfcChangeMapOf (s : List Nat) : List ChangeMap :=
  (segments s).flatMap (fun seg =>
    let runes := seg.flatMap decompose
    if runes.length == 1 then [⟨runes, 0⟩]
    else if runes.length > 1 then [⟨runes, -1⟩]
    else [])

/-- NFC from normalized.go: fast path when the text is already NFC,
otherwise transform with the composing ChangeMap. -/
def NormalizedString.NFC (n : NormalizedString) : Option NormalizedString :=
  if isNormalString .nfc n.normalized then some n
  else n.Transform (nfcChangeMapOf n.normalized) 0

/-- ChangeMap sequence NFKD builds, like `nfdChangeMapOf` over the
norm.NFKD iterator. -/
def nfkdChangeMapOf (s : List Nat) : List ChangeMap :=
  (segments s).flatMap (fun seg =>
    ((seg.flatMap compatDecompose).enum).map (fun p =>
      ⟨[p.2], if p.1 == 0 then 0 else 1⟩))

/-- NFKD from normalized.go: fast path when the text is already NFKD,
otherwise transform with the compatibility decomposition ChangeMap. -/
def NormalizedString.NFKD (n : NormalizedString) : Option NormalizedString :=
  if isNormalString .nfkd n.normalized then some n
  else n.Transform (nfkdChangeMapOf n.normalized) 0

/-- ChangeMap sequence NFKC builds, like `nfcChangeMapOf` over the
norm.NFKD iterator. -/
def nfkcChangeMapOf (s : List Nat) : List ChangeMap :=
  (segments s).flatMap (fun seg =>
    let runes := seg.flatMap compatDecompose
    if runes.length == 1 then [⟨runes, 0⟩]
    else if runes.length > 1 then [⟨runes, -1⟩]
    else [])

/-- NFKC from normalized.go: fast path when the text is already NFKC,
otherwise transform with the compatibility composing ChangeMap. -/
def NormalizedString.NFKC (n : NormalizedString) : Option NormalizedString :=
  if isNormalString .nfkc n.normalized then some n
  else n.Transform (nfkcChangeMapOf n.normalized) 0

/-- Reverse scan of Filter over the reversed rune sequence: counts the
consecutively removed runes and attaches `-removed` to the next
surviving rune; returns the ops in scan order together with the count
of removed runes left over at the end of the scan. -/
def filterScan (fr : Nat) : List Nat → Int → (List ChangeMap × Int)
  | [], removed => ([], removed)
  | r :: rest, removed =>
    if r == fr then filterScan fr rest (removed + 1)
    else
      let res := filterScan fr rest 0
      if removed > 0 then (⟨[r], -removed⟩ :: res.1, res.2)
      else (⟨[r], 0⟩ :: res.1, res.2)

/-- Filter from normalized.go: collects the runes through the norm.NFC
iterator (which yields each cluster NFC-normalized), reverses them,
scans with `filterScan`, flips the ops back to forward order and
transforms with the leftover removed count as initialOffset. -/
def NormalizedString.Filter (n : NormalizedString) (fr : Nat) :
    Option NormalizedString :=
  let oRunes := (segments n.normalized).flatMap (fun seg =>
    composeRun (seg.flatMap decompose))
  let scanned := filterScan fr oRunes.reverse 0
  n.Transform scanned.1.reverse scanned.2

/-- RemoveAccents from normalized.go: writes the Mn-filtered text into a
byte buffer sized to the byte length of the input, leaves the rest of
the buffer as NUL bytes, and stores the whole buffer (decoded back to
runes) as the new normalized string.  The alignment table is not
touched. -/
def NormalizedString.RemoveAccents (n : NormalizedString) : NormalizedString :=
  let srcBytes := utf8Encode n.normalized
  let keptBytes := utf8Encode (n.normalized.filter (fun r => !(isMn r)))
  let b := keptBytes ++ List.replicate (srcBytes.length - keptBytes.length) 0
  { n with normalized := utf8Decode b }

/-- Lowercase from normalized.go: rewrites the normalized text only. -/
def NormalizedString.Lowercase (n : NormalizedString) : NormalizedString :=
  { n with normalized := n.normalized.map toLowerRune }

/-- Uppercase from normalized.go: rewrites the normalized text only. -/
def NormalizedString.Uppercase (n : NormalizedString) : NormalizedString :=
  { n with normalized := n.normalized.map toUpperRune }

/-- SplitOff from normalized.go.  A negative index is log.Fatal (`none`).
The normalized text is re-iterated through the norm.NFC iterator, the
first `at` cluster values are kept and get a fresh identity table; the
original text is then cut at `aligns[len(aligns)].Changes`, an index
that is one past the end of the new table, so this lookup is `none`
(the Go code panics there on every call). -/
def NormalizedString.SplitOff (n : NormalizedString) (atIdx : Int) :
    Option NormalizedString :=
  if atIdx < 0 then none
  else
    let runeVals := (segments n.normalized).map (fun seg =>
      composeRun (seg.flatMap decompose))
    (sliceI runeVals 0 atIdx).bind (fun remainVals =>
      let aligns := (List.range remainVals.length).map
        (fun i : Nat => (⟨(i : Int), (i : Int) + 1⟩ : Alignment))
      let normalized' := remainVals.flatten
      (getI aligns (aligns.length : Int)).bind (fun lastAlign =>
        let originalAt := lastAlign.changes
        let oRuneVals := (segments n.original).map (fun seg =>
          composeRun (seg.flatMap decompose))
        (sliceI oRuneVals 0 originalAt).map (fun remainO =>
          { original := remainO.flatten
            normalized := normalized'
            alignments := aligns })))

/-- MergeWith from normalized.go: append the other instance's texts and
its alignment entries shifted by this instance's normalized rune length
taken before the merge. -/
def NormalizedString.MergeWith (n : NormalizedString) (other : NormalizedString) :
    NormalizedString :=
  let len := n.Len
  { original := n.original ++ other.original
    normalized := n.normalized ++ other.normalized
    alignments := n.alignments ++ other.alignments.map
      (fun a => ⟨a.pos + len, a.changes + len⟩) }

/-- lrstrip from normalized.go: counts leading and trailing whitespace
runes, emits change 0 for every retained rune except the last one which
gets `-trailingSpaces`, and transforms with `leadingSpaces` as the
initialOffset; a whitespace-free string is left untouched. -/
def leadingSpaceCount (runes : List Nat) (left : Bool) : Int :=
  if left then ((runes.takeWhile isSpace).length : Int) else 0

def trailingSpaceCount (runes : List Nat) (right : Bool) : Int :=
  if right then ((runes.reverse.takeWhile isSpace).length : Int) else 0

def NormalizedString.lrstrip (n : NormalizedString) (left right : Bool) :
    Option NormalizedString :=
  let runes := n.normalized
  let leadingSpaces := leadingSpaceCount runes left
  let trailingSpaces := trailingSpaceCount runes right
  if leadingSpaces > 0 ∨ trailingSpaces > 0 then
    let len : Int := (runes.length : Int)
    let changeMap := runes.enum.filterMap (fun p =>
      if (p.1 : Int) < leadingSpaces ∨ (p.1 : Int) ≥ len - trailingSpaces then none
      else if (p.1 : Int) = len - trailingSpaces - 1 then
        some (⟨[p.2], -trailingSpaces⟩ : ChangeMap)
      else some (⟨[p.2], 0⟩ : ChangeMap))
    n.Transform changeMap leadingSpaces
  else some n

/-- LStrip from normalized.go. -/
def NormalizedString.LStrip (n : NormalizedString) : Option NormalizedString :=
  n.lrstrip true false

/-- RStrip from normalized.go. -/
def NormalizedString.RStrip (n : NormalizedString) : Option NormalizedString :=
  n.lrstrip false true

/-- Strip from normalized.go. -/
def NormalizedString.Strip (n : NormalizedString) : Option NormalizedString :=
  n.lrstrip true true

/-- ConvertOffset from normalized.go.  Reading `Alignments[0]` panics on
an empty table (`none`); the Normalized branch indexes the table at the
range's raw start and stop. -/
def NormalizedString.ConvertOffset (n : NormalizedString) (r : Range) :
    Option Range :=
  (getI n.alignments 0).bind (fun a0 =>
    let offset := a0.changes
    match r.indexOn with
    | .originalTarget =>
      let inRange := n.alignments.filter (fun a => r.stop ≥ a.changes)
      let se := inRange.foldl
        (fun (p : Int × Int) a =>
          (if a.pos + offset ≤ r.start then a.pos else p.1,
           if a.changes ≤ r.stop then a.pos else p.2))
        (0, 0)
      some ⟨se.1, se.2, .normalizedTarget⟩
    | .normalizedTarget =>
      (getI n.alignments r.start).bind (fun aStart =>
        (getI n.alignments r.stop).map (fun aStop =>
          ⟨aStart.pos, aStop.pos, .originalTarget⟩)))

/-- RangeOf from normalized.go: substring of `s` indexed by the first
and last element of the index list `r`; empty result when the interval
is inverted, zero-width or out of bounds on the high side.  Reading
`r[0]` of an empty list, or slicing from a negative start, panics
(`none`). -/
def RangeOf (s : List Nat) (r : List Int) : Option (List Nat) :=
  r.head?.bind (fun start =>
    r.getLast?.bind (fun stop =>
      if start ≥ (s.length : Int) ∨ stop > (s.length : Int) ∨ start ≥ stop then
        some []
      else sliceI s start stop))

/-- Range (the method) from normalized.go: converts an original-space
range first, then slices the normalized string over
`MakeRange(start, stop)`. -/
def NormalizedString.Range (n : NormalizedString) (r : Range) :
    Option (List Nat) :=
  (match r.indexOn with
    | .originalTarget => n.ConvertOffset r
    | .normalizedTarget => some r).bind (fun nRange =>
      (makeRange nRange.start nRange.stop).bind (fun idxs =>
        RangeOf n.normalized idxs))

/-- RangeOriginal from normalized.go: converts a normalized-space range
first, then slices the original string. -/
def NormalizedString.RangeOriginal (n : NormalizedString) (r : Normalizer.Range) :
    Option (List Nat) :=
  (match r.indexOn with
    | .normalizedTarget => n.ConvertOffset r
    | .originalTarget => some r).bind (fun oRange =>
      (makeRange oRange.start oRange.stop).bind (fun idxs =>
        RangeOf n.original idxs))

/-- The alignment-table invariant of the spec: the table has one entry
per rune of the current normalized text. -/
abbrev aligned (n : NormalizedString) : Prop :=
  n.alignments.length = n.normalized.length

/-- The Transform loop produces exactly one alignment entry per op. -/
theorem transformGo_length (prior : List Alignment) (io : Int) :
    ∀ (m : List ChangeMap) (i : Nat) (off rem : Int) (l : List Alignment),
      transformGo prior io m i off rem = some l → l.length = m.length := by
  intro m
  induction m with
  | nil =>
    intro i off rem l h
    simp only [transformGo, Option.some.injEq] at h
    simp [← h]
  | cons item rest ih =>
    intro i off rem l h
    simp only [transformGo, Option.bind_eq_some, Option.map_eq_some'] at h
    obtain ⟨p, _, aligns, hrec, hl⟩ := h
    subst hl
    simp [ih _ _ _ _ hrec]

/-- Concatenating the rune values of single-rune ops yields one rune per
op. -/
theorem flatten_singleton_length {m : List ChangeMap}
    (h : ∀ cm ∈ m, cm.runeVal.length = 1) :
    ((m.map (fun cm => cm.runeVal)).flatten).length = m.length := by
  induction m with
  | nil => simp
  | cons a rest ih =>
    simp only [List.map_cons, List.flatten_cons, List.length_append, List.length_cons]
    rw [h a (by simp), ih (fun cm hm => h cm (by simp [hm]))]
    omega

/-- Transform restores the alignment-table invariant whenever every op
carries exactly one rune. -/
theorem transform_aligned {n n' : NormalizedString} {m : List ChangeMap} {io : Int}
    (hs : ∀ cm ∈ m, cm.runeVal.length = 1)
    (h : n.Transform m io = some n') : aligned n' := by
  unfold NormalizedString.Transform at h
  rw [Option.map_eq_some'] at h
  obtain ⟨l, hl, hn⟩ := h
  subst hn
  simpa [aligned, transformGo_length _ _ _ _ _ _ _ hl] using
    (flatten_singleton_length hs).symm

/-- Every op NFD emits carries a single rune. -/
theorem nfdChangeMapOf_singleton (s : List Nat) :
    ∀ cm ∈ nfdChangeMapOf s, cm.runeVal.length = 1 := by
  intro cm hcm
  simp only [nfdChangeMapOf, List.mem_flatMap, List.mem_map] at hcm
  obtain ⟨seg, _, p, _, rfl⟩ := hcm
  rfl

/-- Every op NFKD emits carries a single rune. -/
theorem nfkdChangeMapOf_singleton (s : List Nat) :
    ∀ cm ∈ nfkdChangeMapOf s, cm.runeVal.length = 1 := by
  intro cm hcm
  simp only [nfkdChangeMapOf, List.mem_flatMap, List.mem_map] at hcm
  obtain ⟨seg, _, p, _, rfl⟩ := hcm
  rfl

/-- Every op the Filter scan emits carries a single rune. -/
theorem filterScan_singleton (fr : Nat) :
    ∀ (l : List Nat) (removed : Int) cm,
      cm ∈ (filterScan fr l removed).1 → cm.runeVal.length = 1 := by
  intro l
  induction l with
  | nil =>
    intro removed cm h
    simp [filterScan] at h
  | cons r rest ih =>
    intro removed cm h
    simp only [filterScan] at h
    split at h
    · exact ih _ cm h
    · split at h
      · rcases List.mem_cons.mp h with h1 | h1
        · subst h1; rfl
        · exact ih _ cm h1
      · rcases List.mem_cons.mp h with h1 | h1
        · subst h1; rfl
        · exact ih _ cm h1

/-- Every op lrstrip emits carries a single rune. -/
theorem lrstripChangeMap_singleton (runes : List Nat) (leading trailing len : Int) :
    ∀ cm ∈ runes.enum.filterMap (fun p =>
      if (p.1 : Int) < leading ∨ (p.1 : Int) ≥ len - trailing then none
      else if (p.1 : Int) = len - trailing - 1 then
        some (⟨[p.2], -trailing⟩ : ChangeMap)
      else some (⟨[p.2], 0⟩ : ChangeMap)), cm.runeVal.length = 1 := by
  intro cm hcm
  simp only [List.mem_filterMap] at hcm
  obtain ⟨p, _, hp⟩ := hcm
  split at hp
  · exact absurd hp (by simp)
  · split at hp
    · simp only [Option.some.injEq] at hp
      rw [← hp]
      rfl
    · simp only [Option.some.injEq] at hp
      rw [← hp]
      rfl

/-- C1 counterexample: on the instance built from the decomposed pair
e + U+0301, RemoveAccents rewrites the normalized text to the kept rune
followed by two padding NUL runes (3 runes) while the alignment table
keeps its 2 entries, so the alignment-table length does not equal the
rune count of the normalized text after this mutating operation. -/
theorem c1_counterexample :
    (NewNormalizedFrom [101, 769]).RemoveAccents.alignments.length ≠
      (NewNormalizedFrom [101, 769]).RemoveAccents.normalized.length := by
  decide

/-- C1 (amended): the alignment-table length equals the rune count of
the normalized text after NFD, NFKD, Filter and lrstrip (hence
Strip/LStrip/RStrip) whenever the operation completes, and MergeWith,
Lowercase and Uppercase preserve the invariant; RemoveAccents (NUL
padding), NFC/NFKC (one table entry per multi-rune cluster) and
SplitOff (which never completes) are excluded. -/
theorem c1_amended :
    (∀ n n' : NormalizedString, aligned n → n.NFD = some n' → aligned n') ∧
    (∀ n n' : NormalizedString, aligned n → n.NFKD = some n' → aligned n') ∧
    (∀ (n n' : NormalizedString) (fr : Nat), aligned n → n.Filter fr = some n' →
      aligned n') ∧
    (∀ (n n' : NormalizedString) (left right : Bool), aligned n →
      n.lrstrip left right = some n' → aligned n') ∧
    (∀ n other : NormalizedString, aligned n → aligned other →
      aligned (n.MergeWith other)) ∧
    (∀ n : NormalizedString, aligned n → aligned n.Lowercase) ∧
    (∀ n : NormalizedString, aligned n → aligned n.Uppercase) := by
  refine ⟨?_, ?_, ?_, ?_, ?_, ?_, ?_⟩
  · intro n n' _ h
    exact transform_aligned (nfdChangeMapOf_singleton _) h
  · intro n n' ha h
    unfold NormalizedString.NFKD at h
    split at h
    · simp only [Option.some.injEq] at h
      rw [← h]; exact ha
    · exact transform_aligned (nfkdChangeMapOf_singleton _) h
  · intro n n' fr _ h
    unfold NormalizedString.Filter at h
    refine transform_aligned ?_ h
    intro cm hcm
    rw [List.mem_reverse] at hcm
    exact filterScan_singleton fr _ _ cm hcm
  · intro n n' left right ha h
    simp only [NormalizedString.lrstrip] at h
    split at h
    · exact transform_aligned (lrstripChangeMap_singleton _ _ _ _) h
    · simp only [Option.some.injEq] at h
      rw [← h]; exact ha
  · intro n other ha hb
    simp only [aligned, NormalizedString.MergeWith, List.length_append,
      List.length_map] at *
    omega
  · intro n ha
    simpa [aligned, NormalizedString.Lowercase] using ha
  · intro n ha
    simpa [aligned, NormalizedString.Uppercase] using ha

/-- C1 witness: the amended invariant theorem applied to NFD on the
instance built from the single rune a. -/
theorem c1_witness :
    aligned (NewNormalizedFrom [97]) ∧
    (NewNormalizedFrom [97]).NFD = some (NewNormalizedFrom [97]) ∧
    aligned (NewNormalizedFrom [97]) :=
  ⟨by decide, by decide,
    c1_amended.1 (NewNormalizedFrom [97]) (NewNormalizedFrom [97])
      (by decide) (by decide)⟩

/-- Folding min over a list never exceeds the seed. -/
theorem foldl_min_le_init (l : List Int) (a : Int) : l.foldl min a ≤ a := by
  induction l generalizing a with
  | nil => simp
  | cons x xs ih =>
    exact le_trans (ih (min a x)) (min_le_left a x)

/-- Folding min over a list never exceeds any member. -/
theorem foldl_min_le_mem {l : List Int} {x : Int} (a : Int) (h : x ∈ l) :
    l.foldl min a ≤ x := by
  induction l generalizing a with
  | nil => simp at h
  | cons y ys ih =>
    rcases List.mem_cons.mp h with h1 | h1
    · subst h1
      exact le_trans (foldl_min_le_init ys (min a x)) (min_le_right a x)
    · exact ih (min a y) h1

/-- The min fold evaluates to the seed or to a member. -/
theorem foldl_min_eq_init_or_mem (l : List Int) (a : Int) :
    l.foldl min a = a ∨ l.foldl min a ∈ l := by
  induction l generalizing a with
  | nil => left; rfl
  | cons y ys ih =>
    rcases ih (min a y) with h | h
    · rcases le_total a y with hay | hya
      · left
        simpa [min_eq_left hay] using h
      · right
        rw [List.foldl_cons, h, min_eq_right hya]
        exact List.mem_cons_self y ys
    · right
      exact List.mem_cons_of_mem y h

/-- Folding max over a list is at least the seed. -/
theorem le_foldl_max_init (l : List Int) (a : Int) : a ≤ l.foldl max a := by
  induction l generalizing a with
  | nil => simp
  | cons x xs ih =>
    exact le_trans (le_max_left a x) (ih (max a x))

/-- Folding max over a list is at least any member. -/
theorem le_foldl_max_mem {l : List Int} {x : Int} (a : Int) (h : x ∈ l) :
    x ≤ l.foldl max a := by
  induction l generalizing a with
  | nil => simp at h
  | cons y ys ih =>
    rcases List.mem_cons.mp h with h1 | h1
    · subst h1
      exact le_trans (le_max_right a x) (le_foldl_max_init ys (max a x))
    · exact ih (max a y) h1

/-- The max fold evaluates to the seed or to a member. -/
theorem foldl_max_eq_init_or_mem (l : List Int) (a : Int) :
    l.foldl max a = a ∨ l.foldl max a ∈ l := by
  induction l generalizing a with
  | nil => left; rfl
  | cons y ys ih =>
    rcases ih (max a y) with h | h
    · rcases le_total a y with hay | hya
      · right
        rw [List.foldl_cons, h, max_eq_right hay]
        exact List.mem_cons_self y ys
      · left
        simpa [max_eq_left hya] using h
    · right
      exact List.mem_cons_of_mem y h

/-- The first component of minMax is a lower bound of the pool. -/
theorem minMax_fst_le {pool : List Int} {x : Int} (h : x ∈ pool) :
    (minMax pool).1 ≤ x := by
  cases pool with
  | nil => simp at h
  | cons y rest =>
    rcases List.mem_cons.mp h with h1 | h1
    · subst h1
      exact foldl_min_le_init rest x
    · exact foldl_min_le_mem y h1

/-- The second component of minMax is an upper bound of the pool. -/
theorem le_minMax_snd {pool : List Int} {x : Int} (h : x ∈ pool) :
    x ≤ (minMax pool).2 := by
  cases pool with
  | nil => simp at h
  | cons y rest =>
    rcases List.mem_cons.mp h with h1 | h1
    · subst h1
      exact le_foldl_max_init rest x
    · exact le_foldl_max_mem y h1

/-- The first component of minMax is attained on a nonempty pool. -/
theorem minMax_fst_mem {pool : List Int} (h : pool ≠ []) :
    (minMax pool).1 ∈ pool := by
  cases pool with
  | nil => exact absurd rfl h
  | cons y rest =>
    rcases foldl_min_eq_init_or_mem rest y with h1 | h1
    · rw [minMax, h1]
      exact List.mem_cons_self y rest
    · exact List.mem_cons_of_mem y (by simpa [minMax] using h1)

/-- The second component of minMax is attained on a nonempty pool. -/
theorem minMax_snd_mem {pool : List Int} (h : pool ≠ []) :
    (minMax pool).2 ∈ pool := by
  cases pool with
  | nil => exact absurd rfl h
  | cons y rest =>
    rcases foldl_max_eq_init_or_mem rest y with h1 | h1
    · rw [minMax, h1]
      exact List.mem_cons_self y rest
    · exact List.mem_cons_of_mem y (by simpa [minMax] using h1)

/-- C2 counterexample: in Transform of three ops over the identity table
of a 5-rune string, the op at position 1 has running offset 0, so
priorIndex = 1, and carries effective delta -2.  The slice of 2 prior
entries ending at priorIndex is prior[0:2], whose bounding span is
(0, 2); the code instead produces (1, 3), the bounding span of the
slice prior[1:3] starting at priorIndex. -/
theorem c2_counterexample :
    ((NewNormalizedFrom [97, 98, 99, 100, 101]).Transform
        [⟨[97], 0⟩, ⟨[98], -2⟩, ⟨[99], 0⟩] 0).map
      (fun x => x.alignments.get? 1) = some (some ⟨1, 3⟩) ∧
    (sliceI (NewNormalizedFrom [97, 98, 99, 100, 101]).alignments 0 2).map
      (fun sl => minMax (sl.flatMap fun e => [e.changes, e.pos])) =
      some (0, 2) ∧
    (⟨1, 3⟩ : Alignment) ≠ ⟨0, 2⟩ := by
  decide

/-- C2 (amended): for an op at position i with effective delta c < 0,
the engine takes the contiguous slice of |c| prior-table entries
STARTING at priorIndex = i - offset (equivalently, ending at i minus
the updated offset); the new entry is the bounding span of the start
and end fields over that slice (a lower/upper bound of all of them,
attained in the pool), and the running offset decreases by |c|. -/
theorem c2_amended :
    ∀ (prior : List Alignment) (io : Int) (i : Nat) (offset c : Int)
      (sl : List Alignment),
      c < 0 →
      sliceI prior ((i : Int) - offset) (((i : Int) - offset) + (-c)) = some sl →
      sl ≠ [] →
      ∃ a : Alignment,
        transformAlign prior io i offset c = some (a, offset + c) ∧
        (∀ e ∈ sl, a.pos ≤ e.pos ∧ a.pos ≤ e.changes ∧
          e.pos ≤ a.changes ∧ e.changes ≤ a.changes) ∧
        a.pos ∈ sl.flatMap (fun e => [e.changes, e.pos]) ∧
        a.changes ∈ sl.flatMap (fun e => [e.changes, e.pos]) := by
  intro prior io i offset c sl hc hsl hne
  have h1 : ¬(c > 0) := by omega
  have h2 : ¬(c = 0) := by omega
  have hpool : sl.flatMap (fun e => [e.changes, e.pos]) ≠ [] := by
    cases sl with
    | nil => exact absurd rfl hne
    | cons e rest => simp
  refine ⟨⟨(minMax (sl.flatMap fun e => [e.changes, e.pos])).1,
    (minMax (sl.flatMap fun e => [e.changes, e.pos])).2⟩, ?_, ?_, ?_, ?_⟩
  · simp only [transformAlign]
    rw [if_neg h1, if_neg h2, hsl]
    rfl
  · intro e he
    have hpos : e.pos ∈ sl.flatMap (fun e => [e.changes, e.pos]) :=
      List.mem_flatMap.mpr ⟨e, he, by simp⟩
    have hch : e.changes ∈ sl.flatMap (fun e => [e.changes, e.pos]) :=
      List.mem_flatMap.mpr ⟨e, he, by simp⟩
    exact ⟨minMax_fst_le hpos, minMax_fst_le hch, le_minMax_snd hpos,
      le_minMax_snd hch⟩
  · exact minMax_fst_mem hpool
  · exact minMax_snd_mem hpool

/-- C2 witness: the amended negative-delta step theorem applied to the
concrete op of the counterexample (prior = identity table of a 5-rune
string, i = 1, offset = 0, delta = -2, slice prior[1:3]). -/
theorem c2_witness :
    ((-2 : Int) < 0) ∧
    sliceI (NewNormalizedFrom [97, 98, 99, 100, 101]).alignments
      (((1 : Nat) : Int) - 0) ((((1 : Nat) : Int) - 0) + (-(-2 : Int))) =
      some [⟨1, 2⟩, ⟨2, 3⟩] ∧
    ([(⟨1, 2⟩ : Alignment), ⟨2, 3⟩] : List Alignment) ≠ [] ∧
    (∃ a : Alignment,
      transformAlign (NewNormalizedFrom [97, 98, 99, 100, 101]).alignments
          0 1 0 (-2) = some (a, 0 + (-2)) ∧
      (∀ e ∈ ([(⟨1, 2⟩ : Alignment), ⟨2, 3⟩] : List Alignment),
        a.pos ≤ e.pos ∧ a.pos ≤ e.changes ∧
          e.pos ≤ a.changes ∧ e.changes ≤ a.changes) ∧
      a.pos ∈ ([(⟨1, 2⟩ : Alignment), ⟨2, 3⟩] : List Alignment).flatMap
        (fun e => [e.changes, e.pos]) ∧
      a.changes ∈ ([(⟨1, 2⟩ : Alignment), ⟨2, 3⟩] : List Alignment).flatMap
        (fun e => [e.changes, e.pos])) :=
  ⟨by decide, by decide, by decide,
    c2_amended (NewNormalizedFrom [97, 98, 99, 100, 101]).alignments
      0 1 0 (-2) [⟨1, 2⟩, ⟨2, 3⟩] (by decide) (by decide) (by decide)⟩

/-- C3 counterexample: NFD carries no already-normal fast path, and
applying it twice to the instance built from é + l leaves the text
unchanged but corrupts the alignment table: the second pass mislabels
the existing combining mark as an insertion, shifting every later
lookup, so the result of two applications differs from one. -/
theorem c3_counterexample :
    (NewNormalizedFrom [233, 108]).NFD =
      some ⟨[233, 108], [101, 769, 108], [⟨0, 1⟩, ⟨0, 1⟩, ⟨1, 2⟩]⟩ ∧
    (⟨[233, 108], [101, 769, 108],
        [⟨0, 1⟩, ⟨0, 1⟩, ⟨1, 2⟩]⟩ : NormalizedString).NFD =
      some ⟨[233, 108], [101, 769, 108], [⟨0, 1⟩, ⟨0, 1⟩, ⟨0, 1⟩]⟩ ∧
    (⟨[233, 108], [101, 769, 108],
        [⟨0, 1⟩, ⟨0, 1⟩, ⟨0, 1⟩]⟩ : NormalizedString) ≠
      ⟨[233, 108], [101, 769, 108], [⟨0, 1⟩, ⟨0, 1⟩, ⟨1, 2⟩]⟩ := by
  decide

/-- C3 (amended): NFC, NFKD and NFKC check the already-normal fast path
and return without changing anything when the normalized text is in the
target form; NFD performs no such check, and applying it twice can
change the alignment table while leaving the text unchanged. -/
theorem c3_amended :
    (∀ n : NormalizedString,
      isNormalString .nfc n.normalized = true → n.NFC = some n) ∧
    (∀ n : NormalizedString,
      isNormalString .nfkd n.normalized = true → n.NFKD = some n) ∧
    (∀ n : NormalizedString,
      isNormalString .nfkc n.normalized = true → n.NFKC = some n) := by
  refine ⟨?_, ?_, ?_⟩
  · intro n h
    simp [NormalizedString.NFC, h]
  · intro n h
    simp [NormalizedString.NFKD, h]
  · intro n h
    simp [NormalizedString.NFKC, h]

/-- C3 witness: the fast-path theorem applied to NFC on the instance
built from the single rune a, which is already NFC-normal. -/
theorem c3_witness :
    isNormalString .nfc (NewNormalizedFrom [97]).normalized = true ∧
    (NewNormalizedFrom [97]).NFC = some (NewNormalizedFrom [97]) :=
  ⟨by decide, c3_amended.1 (NewNormalizedFrom [97]) (by decide)⟩

/-- C4: evaluating SplitOff at the failing input.  On the instance built
from hello, SplitOff 3 reads `aligns[len(aligns)]`, one past the end of
the freshly built table, so the call dies with an index panic instead
of truncating; the model returns `none`. -/
theorem c4_bug_eval :
    (NewNormalizedFrom [104, 101, 108, 108, 111]).SplitOff 3 = none := by
  decide

/-- C5 counterexample: filtering l from hello yields heo, but the
alignment entry of the surviving o rune (normalized index 2) is (4, 5),
its own original span only, not the span [2, 5) claimed; the removed
l positions were merged into the e entry instead. -/
theorem c5_counterexample :
    ((NewNormalizedFrom [104, 101, 108, 108, 111]).Filter 108).map
      (fun x => (x.normalized, x.alignments.get? 2)) =
      some ([104, 101, 111], some ⟨4, 5⟩) ∧
    (⟨4, 5⟩ : Alignment) ≠ ⟨2, 5⟩ := by
  decide

/-- C5 (amended): filtering l from hello yields normalized text heo;
the e rune, which immediately precedes the removed run, receives the
merged span (1, 3) covering itself and the first removed l, while the
surviving o keeps its own span (4, 5) (and the second l's span is
dropped). -/
theorem c5_amended :
    (NewNormalizedFrom [104, 101, 108, 108, 111]).Filter 108 =
      some ⟨[104, 101, 108, 108, 111], [104, 101, 111],
        [⟨0, 1⟩, ⟨1, 3⟩, ⟨4, 5⟩]⟩ := by
  decide

/-- C6 counterexample: stripping the 4-rune string space-a-b-space
yields ab, but converting the normalized range covering ab back to
original space yields start 0 (the leading space is merged into a's
span by the initialOffset handling), not the claimed start 1 of the
range [1, 3). -/
theorem c6_counterexample :
    ((NewNormalizedFrom [32, 97, 98, 32]).Strip).bind
      (fun x => x.ConvertOffset ⟨0, 1, .normalizedTarget⟩) =
      some ⟨0, 2, .originalTarget⟩ ∧
    (0 : Int) ≠ 1 := by
  decide

/-- C6 (amended): stripping the string space-a-b-space yields
normalized text ab with alignment entries (0, 1) and (2, 3); converting
the normalized range covering ab back to original space yields the
Range with start 0 and stop 2, because Transform's initialOffset
handling gives the first retained rune an effective delta of -1 and
merges the leading space's span into it. -/
theorem c6_amended :
    (NewNormalizedFrom [32, 97, 98, 32]).Strip =
      some ⟨[32, 97, 98, 32], [97, 98], [⟨0, 1⟩, ⟨2, 3⟩]⟩ ∧
    ((NewNormalizedFrom [32, 97, 98, 32]).Strip).bind
      (fun x => x.ConvertOffset ⟨0, 1, .normalizedTarget⟩) =
      some ⟨0, 2, .originalTarget⟩ := by
  decide

/-- C8 counterexample: requesting the inverted normalized range (2, 1)
from the Range method on the instance built from abc does not return an
empty string: MakeRange dies on the negative width (and a zero-width
range dies indexing `r[0]` of an empty index list), so the call
crashes, modelled by `none`. -/
theorem c8_counterexample :
    (NewNormalizedFrom [97, 98, 99]).Range ⟨2, 1, .normalizedTarget⟩ = none ∧
    (none : Option (List Nat)) ≠ some [] := by
  decide

/-- C8 (amended): RangeOf itself is fail-soft for any nonempty index
list: whenever the requested interval is out of bounds on the high
side, inverted or zero-width, it returns the empty string and no error;
but the Range and RangeOriginal methods crash on zero-width or inverted
ranges because MakeRange hands RangeOf an empty or invalid index
list. -/
theorem c8_amended :
    ∀ (s : List Nat) (r : List Int) (start stop : Int),
      r.head? = some start → r.getLast? = some stop →
      (start ≥ (s.length : Int) ∨ stop > (s.length : Int) ∨ start ≥ stop) →
      RangeOf s r = some [] := by
  intro s r start stop hh hl hcond
  unfold RangeOf
  rw [hh, hl]
  simp only [Option.some_bind]
  rw [if_pos hcond]

/-- C8 witness: the fail-soft theorem applied to the out-of-bounds index
list [5, 6] on a 1-rune string. -/
theorem c8_witness :
    ([(5 : Int), 6] : List Int).head? = some 5 ∧
    ([(5 : Int), 6] : List Int).getLast? = some 6 ∧
    ((5 : Int) ≥ (([97] : List Nat).length : Int) ∨
      (6 : Int) > (([97] : List Nat).length : Int) ∨ (5 : Int) ≥ 6) ∧
    RangeOf [97] [5, 6] = some [] :=
  ⟨by decide, by decide, by decide,
    c8_amended [97] [5, 6] 5 6 (by decide) (by decide) (by decide)⟩

/-- C9: MergeWith appends the other instance's original and normalized
texts, the merged normalized rune length is the sum of the two lengths,
this instance's alignment entries are kept in place, and the other
instance's entries follow, each with its start and end fields shifted
by this instance's normalized rune length taken before the merge. -/
theorem c9_mergeWith :
    ∀ a b : NormalizedString,
      (a.MergeWith b).original = a.original ++ b.original ∧
      (a.MergeWith b).normalized = a.normalized ++ b.normalized ∧
      (a.MergeWith b).Len = a.Len + b.Len ∧
      (∀ i : Nat, i < a.alignments.length →
        (a.MergeWith b).alignments.get? i = a.alignments.get? i) ∧
      (∀ i : Nat, i < b.alignments.length →
        (a.MergeWith b).alignments.get? (a.alignments.length + i) =
          (b.alignments.get? i).map
            (fun al => ⟨al.pos + a.Len, al.changes + a.Len⟩)) := by
  intro a b
  refine ⟨rfl, rfl, ?_, ?_, ?_⟩
  · simp [NormalizedString.MergeWith, NormalizedString.Len]
  · intro i hi
    exact List.get?_append hi
  · intro i _
    rw [NormalizedString.MergeWith]
    simp only
    rw [List.get?_append_right (by omega)]
    simp [List.get?_map]

/-- C9 witness: merging the 5-rune instance abcde with the 3-rune
instance xyz gives normalized length 8, and the last appended entry is
the other instance's entry 2 shifted by 5. -/
theorem c9_witness :
    ((NewNormalizedFrom [97, 98, 99, 100, 101]).MergeWith
      (NewNormalizedFrom [120, 121, 122])).Len =
        (NewNormalizedFrom [97, 98, 99, 100, 101]).Len +
          (NewNormalizedFrom [120, 121, 122]).Len ∧
    (2 : Nat) < (NewNormalizedFrom [120, 121, 122]).alignments.length ∧
    ((NewNormalizedFrom [97, 98, 99, 100, 101]).MergeWith
      (NewNormalizedFrom [120, 121, 122])).alignments.get?
        ((NewNormalizedFrom [97, 98, 99, 100, 101]).alignments.length + 2) =
      ((NewNormalizedFrom [120, 121, 122]).alignments.get? 2).map
        (fun al => ⟨al.pos + (NewNormalizedFrom [97, 98, 99, 100, 101]).Len,
          al.changes + (NewNormalizedFrom [97, 98, 99, 100, 101]).Len⟩) :=
  ⟨(c9_mergeWith (NewNormalizedFrom [97, 98, 99, 100, 101])
      (NewNormalizedFrom [120, 121, 122])).2.2.1,
    by decide,
    (c9_mergeWith (NewNormalizedFrom [97, 98, 99, 100, 101])
      (NewNormalizedFrom [120, 121, 122])).2.2.2.2 2 (by decide)⟩

/-- The identity alignment table over k runes, as NewNormalizedFrom
builds it. -/
def idAligns (k : Nat) : List Alignment :=
  (List.range k).map (fun i : Nat => ⟨(i : Int), (i : Int) + 1⟩)

theorem newNormalizedFrom_alignments (s : List Nat) :
    (NewNormalizedFrom s).alignments = idAligns s.length := rfl

theorem idAligns_succ (k : Nat) :
    idAligns (k + 1) = idAligns k ++ [⟨(k : Int), (k : Int) + 1⟩] := by
  simp [idAligns, List.range_succ]

/-- Indexing the identity table. -/
theorem getI_idAligns (k j : Nat) (h : j < k) :
    getI (idAligns k) ((j : Nat) : Int) = some ⟨(j : Int), (j : Int) + 1⟩ := by
  rw [getI, if_pos (Int.natCast_nonneg j), Int.toNat_natCast, idAligns,
    List.get?_map, List.get?_range h, Option.map_some']

/-- The ConvertOffset pre-filter keeps the whole identity table when the
requested stop covers it. -/
theorem filter_idAligns (k : Nat) (stop : Int) (h : (k : Int) ≤ stop) :
    (idAligns k).filter (fun a => stop ≥ a.changes) = idAligns k := by
  rw [List.filter_eq_self]
  intro a ha
  simp only [idAligns, List.mem_map, List.mem_range] at ha
  obtain ⟨i, hi, rfl⟩ := ha
  dsimp only
  rw [decide_eq_true_eq]
  omega

/-- The ConvertOffset fold over the identity table with offset 1,
requested start 0 and a stop covering the table lands on (0, k - 1). -/
theorem foldl_idAligns (stop : Int) (k : Nat) (h1 : 1 ≤ k)
    (h2 : (k : Int) ≤ stop) :
    (idAligns k).foldl
      (fun (p : Int × Int) a =>
        (if a.pos + 1 ≤ 0 then a.pos else p.1,
         if a.changes ≤ stop then a.pos else p.2)) (0, 0) =
      (0, (k : Int) - 1) := by
  induction k with
  | zero => omega
  | succ k ih =>
    rcases Nat.eq_zero_or_pos k with rfl | hk
    · have h01 : idAligns (0 + 1) = [⟨0, 1⟩] := by decide
      rw [h01, List.foldl_cons, List.foldl_nil]
      dsimp only
      rw [if_neg (by omega), if_pos (by push_cast at h2; omega)]
      push_cast
      norm_num
    · rw [idAligns_succ, List.foldl_append,
        ih hk (le_trans (by exact_mod_cast Nat.le_succ k) h2)]
      rw [List.foldl_cons, List.foldl_nil]
      dsimp only
      rw [if_neg (by omega), if_pos (by push_cast at h2 ⊢; omega)]
      push_cast
      norm_num

/-- C7 counterexample: on the fresh 2-rune instance ab, converting the
full original range (start 0, stop 2) to normalized space yields
(0, 1), and converting that back yields (0, 1), not the original full
range (0, 2): the round trip loses the endpoint. -/
theorem c7_counterexample :
    (NewNormalizedFrom [97, 98]).ConvertOffset ⟨0, 2, .originalTarget⟩ =
      some ⟨0, 1, .normalizedTarget⟩ ∧
    (NewNormalizedFrom [97, 98]).ConvertOffset ⟨0, 1, .normalizedTarget⟩ =
      some ⟨0, 1, .originalTarget⟩ ∧
    (⟨0, 1, .originalTarget⟩ : Range) ≠ ⟨0, 2, .originalTarget⟩ := by
  decide

/-- C7 (amended): on a freshly constructed instance over a non-empty
k-rune input, converting the full original-space range (start 0,
stop k) to normalized space yields (0, k - 1), and converting that back
to original space yields (0, k - 1) again: the round trip returns the
full range with stop k - 1 (the index of the last rune), not the
original stop k. -/
theorem c7_amended :
    ∀ s : List Nat, s ≠ [] →
      (NewNormalizedFrom s).ConvertOffset
          ⟨0, (s.length : Int), .originalTarget⟩ =
        some ⟨0, (s.length : Int) - 1, .normalizedTarget⟩ ∧
      (NewNormalizedFrom s).ConvertOffset
          ⟨0, (s.length : Int) - 1, .normalizedTarget⟩ =
        some ⟨0, (s.length : Int) - 1, .originalTarget⟩ := by
  intro s hs
  have hk : 1 ≤ s.length := List.length_pos.mpr hs
  have h0 : getI (NewNormalizedFrom s).alignments 0 = some ⟨0, 1⟩ := by
    have h := getI_idAligns s.length 0 hk
    rw [newNormalizedFrom_alignments]
    simpa using h
  have hlast : getI (NewNormalizedFrom s).alignments ((s.length : Int) - 1) =
      some ⟨(s.length : Int) - 1, (s.length : Int)⟩ := by
    have h := getI_idAligns s.length (s.length - 1) (by omega)
    rw [newNormalizedFrom_alignments]
    have e1 : ((s.length - 1 : Nat) : Int) = (s.length : Int) - 1 := by omega
    rw [e1] at h
    have e2 : (s.length : Int) - 1 + 1 = (s.length : Int) := by ring
    rw [e2] at h
    exact h
  constructor
  · unfold NormalizedString.ConvertOffset
    rw [h0]
    simp only [Option.some_bind]
    dsimp only
    rw [newNormalizedFrom_alignments,
      filter_idAligns s.length (s.length : Int) (le_refl _),
      foldl_idAligns (s.length : Int) s.length hk (le_refl _)]
  · unfold NormalizedString.ConvertOffset
    rw [h0]
    simp only [Option.some_bind]
    rw [hlast]
    simp only [Option.map_some']

/-- C7 witness: the amended round-trip theorem applied to the 2-rune
input ab. -/
theorem c7_witness :
    ([97, 98] : List Nat) ≠ [] ∧
    ((NewNormalizedFrom [97, 98]).ConvertOffset
        ⟨0, (([97, 98] : List Nat).length : Int), .originalTarget⟩ =
      some ⟨0, (([97, 98] : List Nat).length : Int) - 1, .normalizedTarget⟩ ∧
    (NewNormalizedFrom [97, 98]).ConvertOffset
        ⟨0, (([97, 98] : List Nat).length : Int) - 1, .normalizedTarget⟩ =
      some ⟨0, (([97, 98] : List Nat).length : Int) - 1, .originalTarget⟩) :=
  ⟨by decide, c7_amended [97, 98] (by decide)⟩

theorem utf8Encode_cons (r : Nat) (l : List Nat) :
    utf8Encode (r :: l) = utf8EncodeChar r ++ utf8Encode l := rfl

theorem utf8Encode_append (a b : List Nat) :
    utf8Encode (a ++ b) = utf8Encode a ++ utf8Encode b := by
  simp [utf8Encode, List.flatMap_append]

theorem utf8DecodeAux_start_low {b : Nat} (h : b < 128) (rest : List Nat) :
    utf8DecodeAux (b :: rest) 0 0 = b :: utf8DecodeAux rest 0 0 := by
  simp only [utf8DecodeAux]
  rw [if_pos h]

theorem utf8DecodeAux_start2 {b : Nat} (h1 : ¬b < 128) (h2 : b < 224)
    (rest : List Nat) :
    utf8DecodeAux (b :: rest) 0 0 = utf8DecodeAux rest 1 (b - 192) := by
  simp only [utf8DecodeAux]
  rw [if_neg h1, if_pos h2]

theorem utf8DecodeAux_start3 {b : Nat} (h1 : ¬b < 128) (h2 : ¬b < 224)
    (h3 : b < 240) (rest : List Nat) :
    utf8DecodeAux (b :: rest) 0 0 = utf8DecodeAux rest 2 (b - 224) := by
  simp only [utf8DecodeAux]
  rw [if_neg h1, if_neg h2, if_pos h3]

theorem utf8DecodeAux_start4 {b : Nat} (h1 : ¬b < 128) (h2 : ¬b < 224)
    (h3 : ¬b < 240) (rest : List Nat) :
    utf8DecodeAux (b :: rest) 0 0 = utf8DecodeAux rest 3 (b - 240) := by
  simp only [utf8DecodeAux]
  rw [if_neg h1, if_neg h2, if_neg h3]

theorem utf8DecodeAux_last (b acc : Nat) (rest : List Nat) :
    utf8DecodeAux (b :: rest) 1 acc =
      (acc * 64 + (b - 128)) :: utf8DecodeAux rest 0 0 := rfl

theorem utf8DecodeAux_mid (b acc k : Nat) (rest : List Nat) :
    utf8DecodeAux (b :: rest) (k + 2) acc =
      utf8DecodeAux rest (k + 1) (acc * 64 + (b - 128)) := rfl

/-- Decoding one valid encoded rune at the front of a byte stream
recovers the rune. -/
theorem utf8Decode_encodeChar (r : Nat) (h : r < 1114112) (rest : List Nat) :
    utf8Decode (utf8EncodeChar r ++ rest) = r :: utf8Decode rest := by
  by_cases h1 : r < 128
  · rw [utf8EncodeChar, if_pos h1, List.singleton_append, utf8Decode,
      utf8DecodeAux_start_low h1, utf8Decode]
  · by_cases h2 : r < 2048
    · rw [utf8EncodeChar, if_neg h1, if_pos h2, List.cons_append,
        List.cons_append, List.nil_append, utf8Decode,
        utf8DecodeAux_start2 (by omega) (by omega), utf8DecodeAux_last,
        utf8Decode]
      simp only [List.cons.injEq]
      exact ⟨by omega, trivial⟩
    · by_cases h3 : r < 65536
      · rw [utf8EncodeChar, if_neg h1, if_neg h2, if_pos h3, List.cons_append,
          List.cons_append, List.cons_append, List.nil_append, utf8Decode,
          utf8DecodeAux_start3 (by omega) (by omega) (by omega),
          utf8DecodeAux_mid, utf8DecodeAux_last, utf8Decode]
        simp only [List.cons.injEq]
        exact ⟨by omega, trivial⟩
      · rw [utf8EncodeChar, if_neg h1, if_neg h2, if_neg h3, List.cons_append,
          List.cons_append, List.cons_append, List.cons_append, List.nil_append,
          utf8Decode, utf8DecodeAux_start4 (by omega) (by omega) (by omega),
          utf8DecodeAux_mid, utf8DecodeAux_mid, utf8DecodeAux_last, utf8Decode]
        simp only [List.cons.injEq]
        exact ⟨by omega, trivial⟩

/-- Decoding the encoding of a valid rune sequence followed by any
byte tail recovers the sequence in front of the decoded tail. -/
theorem utf8Decode_encode_append (s : List Nat)
    (h : ∀ r ∈ s, r < 1114112) (tail : List Nat) :
    utf8Decode (utf8Encode s ++ tail) = s ++ utf8Decode tail := by
  induction s with
  | nil => simp [utf8Encode]
  | cons r rest ih =>
    rw [utf8Encode_cons, List.append_assoc,
      utf8Decode_encodeChar r (h r (by simp)) _,
      ih (fun x hx => h x (by simp [hx])), List.cons_append]

/-- NUL bytes decode to NUL runes. -/
theorem utf8Decode_replicate_zero (k : Nat) :
    utf8Decode (List.replicate k 0) = List.replicate k 0 := by
  induction k with
  | zero => rfl
  | succ k ih =>
    rw [List.replicate_succ, utf8Decode, utf8DecodeAux_start_low (by omega)]
    rw [utf8Decode] at ih
    rw [ih]

/-- NUL runes encode to NUL bytes. -/
theorem utf8Encode_replicate_zero (k : Nat) :
    utf8Encode (List.replicate k 0) = List.replicate k 0 := by
  induction k with
  | zero => rfl
  | succ k ih =>
    rw [List.replicate_succ, utf8Encode_cons, ih]
    rfl

theorem utf8EncodeChar_length_pos (r : Nat) : 0 < (utf8EncodeChar r).length := by
  unfold utf8EncodeChar
  split
  · simp
  · split
    · simp
    · split <;> simp

/-- Filtering runes out never lengthens the encoding. -/
theorem utf8Encode_filter_le (p : Nat → Bool) (s : List Nat) :
    (utf8Encode (s.filter p)).length ≤ (utf8Encode s).length := by
  induction s with
  | nil => simp
  | cons r rest ih =>
    rw [List.filter_cons]
    by_cases hp : p r = true
    · rw [if_pos hp, utf8Encode_cons, utf8Encode_cons]
      simp only [List.length_append]
      omega
    · rw [if_neg hp, utf8Encode_cons]
      simp only [List.length_append]
      omega

/-- Dropping at least one combining mark strictly shortens the
encoding. -/
theorem utf8Encode_filter_lt (s : List Nat)
    (hex : ∃ r, r ∈ s ∧ isMn r = true) :
    (utf8Encode (s.filter (fun r => !(isMn r)))).length <
      (utf8Encode s).length := by
  induction s with
  | nil =>
    obtain ⟨r, hr, _⟩ := hex
    simp at hr
  | cons a rest ih =>
    rw [List.filter_cons]
    by_cases ha : isMn a = true
    · rw [if_neg (by simp [ha]), utf8Encode_cons]
      have hle := utf8Encode_filter_le (fun r => !(isMn r)) rest
      have hpos := utf8EncodeChar_length_pos a
      simp only [List.length_append]
      omega
    · rw [if_pos (by simp [ha]), utf8Encode_cons, utf8Encode_cons]
      simp only [List.length_append]
      have hex' : ∃ r, r ∈ rest ∧ isMn r = true := by
        obtain ⟨r, hr, hmr⟩ := hex
        rcases List.mem_cons.mp hr with rfl | hr2
        · exact absurd hmr ha
        · exact ⟨r, hr2, hmr⟩
      have := ih hex'
      omega

/-- C10: RemoveAccents writes the mark-filtered text into a buffer
sized to the byte length of the input and stores the whole buffer, so
the stored normalized string is the filtered text followed by padding
NUL runes, its byte length equals the input's byte length (it never
shrinks), the alignment table and original text are untouched, and the
padding is nonempty whenever at least one combining mark was
removed. -/
theorem c10_removeAccents :
    ∀ n : NormalizedString, (∀ r ∈ n.normalized, r < 1114112) →
      n.RemoveAccents.normalized =
        n.normalized.filter (fun r => !(isMn r)) ++
          List.replicate ((utf8Encode n.normalized).length -
            (utf8Encode (n.normalized.filter (fun r => !(isMn r)))).length) 0 ∧
      (utf8Encode n.RemoveAccents.normalized).length =
        (utf8Encode n.normalized).length ∧
      n.RemoveAccents.alignments = n.alignments ∧
      n.RemoveAccents.original = n.original ∧
      ((∃ r, r ∈ n.normalized ∧ isMn r = true) →
        0 < (utf8Encode n.normalized).length -
          (utf8Encode (n.normalized.filter (fun r => !(isMn r)))).length) := by
  intro n hv
  have hvkept : ∀ r ∈ n.normalized.filter (fun r => !(isMn r)), r < 1114112 :=
    fun r hr => hv r (List.mem_of_mem_filter hr)
  have hnorm : n.RemoveAccents.normalized =
      utf8Decode (utf8Encode (n.normalized.filter (fun r => !(isMn r))) ++
        List.replicate ((utf8Encode n.normalized).length -
          (utf8Encode (n.normalized.filter (fun r => !(isMn r)))).length) 0) := rfl
  have hdec : n.RemoveAccents.normalized =
      n.normalized.filter (fun r => !(isMn r)) ++
        List.replicate ((utf8Encode n.normalized).length -
          (utf8Encode (n.normalized.filter (fun r => !(isMn r)))).length) 0 := by
    rw [hnorm, utf8Decode_encode_append _ hvkept, utf8Decode_replicate_zero]
  refine ⟨hdec, ?_, rfl, rfl, ?_⟩
  · rw [hdec, utf8Encode_append, List.length_append, utf8Encode_replicate_zero,
      List.length_replicate]
    have hle := utf8Encode_filter_le (fun r => !(isMn r)) n.normalized
    omega
  · intro hex
    exact Nat.sub_pos_of_lt (utf8Encode_filter_lt n.normalized hex)

/-- C10 witness: the padding theorem applied to the decomposed pair
e + U+0301: the mark is removed and two NUL runes pad the result. -/
theorem c10_witness :
    (∀ r ∈ (NewNormalizedFrom [101, 769]).normalized, r < 1114112) ∧
    (NewNormalizedFrom [101, 769]).RemoveAccents.normalized =
      (NewNormalizedFrom [101, 769]).normalized.filter (fun r => !(isMn r)) ++
        List.replicate
          ((utf8Encode (NewNormalizedFrom [101, 769]).normalized).length -
            (utf8Encode ((NewNormalizedFrom [101, 769]).normalized.filter
              (fun r => !(isMn r)))).length) 0 :=
  ⟨by decide, (c10_removeAccents (NewNormalizedFrom [101, 769]) (by decide)).1⟩

end Normalizer
